import Mathlib

/-!
Verification of the combinational-logic circuit simulator core
(`src/circuit.ts`, types in `src/circuit_types.ts` / `src/parser.ts`).

Shallow embedding conventions:
* TypeScript `bigint` is modelled as `Int`; `BigInt.asUintN(n, x)` is
  Euclidean remainder by `2 ^ n` (result in `[0, 2^n)`, as in JS).
* JS `number` fields that hold integers (widths, slice bounds) are modelled
  as `Nat` where the source only ever stores non-negative integers
  (declared widths, regex-parsed digit strings) and as `Int` where a
  negative value can flow in (static slice bounds).
* A JS value that may be `undefined` is an `Option`; a thrown exception is
  the `Except.error` case.  Reading a property of `undefined`
  (destructuring, `.value`, `.width`) throws a `TypeError`.
* `Math.ceil(Math.log2 (n+1))` on a `Number` is idealized as the exact
  integer ceiling of the base-2 logarithm (exact for the doubles that
  represent integers faithfully); likewise `Number(bigint)` conversions are
  idealized as the identity on integers.
-/

namespace VerilogCombSim

/-- The apostrophe character used by sized Verilog literals (code 39). -/
def quoteChar : Char := Char.ofNat 39

/-- `Value` from `circuit_types.ts`: `{ width: number; value: bigint }`. -/
structure Value where
  width : Nat
  value : Int
deriving DecidableEq, Repr

/-- `Expr` from `circuit_types.ts` (the version used by `circuit.ts`,
including `repeat` and `slice_dyn`).  The `repeat` variant is called
`repeatE` because `repeat` is a Lean keyword, and the `end` field of
`slice` is called `end_`. -/
inductive Expr where
  | constant (value : String)
  | register (name : String)
  | bin_op (op : String) (left right : Expr)
  | un_op (op : String) (expr : Expr)
  | cond (condition trueExpr falseExpr : Expr)
  | concat (exprs : List Expr)
  | repeatE (expr count : Expr)
  | slice (expr : Expr) (start end_ : Int)
  | slice_dyn (expr start : Expr) (width : Nat)
  | select (expr index : Expr)

/-- `Env` from `circuit.ts`: `{ [name: string]: Value }`.  A lookup of an
absent key yields JS `undefined`, i.e. `none`. -/
def Env := String → Option Value

/-- The distinguishable failure modes of `evalExpr` (messages of the
`throw new Error(...)` calls and the implicit JS `TypeError`s /
`SyntaxError`s). -/
inductive EvalErr where
  /-- `Invalid constant format` -/
  | invalidConstant
  /-- `Unknown base in constant` (switch default, unreachable past the regex) -/
  | unknownBase
  /-- `Unknown binary operator` -/
  | unknownBinOp
  /-- `Unknown unary operator` -/
  | unknownUnOp
  /-- `width must be > 0` in `concatValues` -/
  | concatWidth
  /-- `value must be non-negative` in `concatValues` -/
  | concatNegative
  /-- `Repeat count must be > 0` -/
  | repeatCount
  /-- `Slice out of range` (static `slice` only) -/
  | sliceOutOfRange
  /-- JS `SyntaxError` thrown by `BigInt(string)` on malformed digits -/
  | numberSyntax
  /-- JS `TypeError` from using `undefined` as a `Value` -/
  | typeError
deriving DecidableEq, Repr

/-- `ones(n)` from `circuit.ts`: `(1n << BigInt(n)) - 1n`, an n-bit mask. -/
def ones (n : Nat) : Int := 2 ^ n - 1

/-- `BigInt.asUintN(n, x)`: interpret the low `n` bits of `x` as an
unsigned integer; equals the Euclidean remainder of `x` modulo `2 ^ n`. -/
def asUintN (n : Nat) (x : Int) : Int := x.emod (2 ^ n)

/-- JS bigint `~x` (two's complement NOT). -/
def jsNot (x : Int) : Int := -x - 1

/-- JS bigint `x >> r` (arithmetic shift; a negative `r` shifts left). -/
def jsShr (x r : Int) : Int :=
  if 0 ≤ r then Int.ediv x (2 ^ r.toNat) else x * 2 ^ (-r).toNat

/-- JS bigint `x << r` (a negative `r` shifts right arithmetically). -/
def jsShl (x r : Int) : Int :=
  if 0 ≤ r then x * 2 ^ r.toNat else Int.ediv x (2 ^ (-r).toNat)

/-- Decimal digit run: the value of `BigInt`/`parseInt` on a string of
decimal digits. -/
def decDigitsToNat (cs : List Char) : Nat :=
  cs.foldl (fun acc c => acc * 10 + (c.toNat - 48)) 0

/-- `INT_LITERAL_REGEX = /^\d+$/`. -/
def isIntLiteral (s : String) : Bool :=
  !s.data.isEmpty && s.data.all Char.isDigit

/-- Character class `[0-9a-fA-FxX]` of `WIDTH_LITERAL_REGEX`. -/
def isLitDigitChar (c : Char) : Bool :=
  c.isDigit || (97 ≤ c.toNat && c.toNat ≤ 102) ||
    (65 ≤ c.toNat && c.toNat ≤ 70) || c.toNat == 120 || c.toNat == 88

/-- Character class `[bBhHdD]` of `WIDTH_LITERAL_REGEX`. -/
def isBaseChar (c : Char) : Bool :=
  c.toNat == 98 || c.toNat == 66 || c.toNat == 104 || c.toNat == 72 ||
    c.toNat == 100 || c.toNat == 68

/-- ASCII `toLowerCase` on a character code. -/
def toLowerCode (n : Nat) : Nat := if 65 ≤ n && n ≤ 90 then n + 32 else n

/-- Match of `WIDTH_LITERAL_REGEX = /^(\d+)'([bBhHdD])([0-9a-fA-FxX]+)$/`:
returns `(parseInt(match[1], 10), match[2].toLowerCase() as char code,
match[3])` on success. -/
def parseWidthLit (s : String) : Option (Nat × Nat × List Char) :=
  let cs := s.data
  let ds := cs.takeWhile Char.isDigit
  match ds, cs.dropWhile Char.isDigit with
  | [], _ => none
  | _ :: _, q :: b :: rest =>
      if q == quoteChar && isBaseChar b && !rest.isEmpty &&
          rest.all isLitDigitChar then
        some (decDigitsToNat ds, toLowerCode b.toNat, rest)
      else none
  | _ :: _, _ => none

/-- Value of a single digit character for `BigInt` parsing ([0-9a-fA-F]). -/
def digitVal (c : Char) : Option Nat :=
  let n := c.toNat
  if 48 ≤ n && n ≤ 57 then some (n - 48)
  else if 97 ≤ n && n ≤ 102 then some (n - 87)
  else if 65 ≤ n && n ≤ 70 then some (n - 55)
  else none

/-- `BigInt` digit-string parsing in a given base (2, 10 or 16); `none`
models the `SyntaxError` JS throws on an out-of-base digit. -/
def parseDigitsBase (base : Nat) (cs : List Char) : Option Nat :=
  cs.foldl
    (fun acc c => do
      let a ← acc
      let d ← digitVal c
      if d < base then some (a * base + d) else none)
    (some 0)

/-- Structural helper computing the bit length of `n` (fuel-driven so that
it reduces definitionally; any `fuel ≥ n` gives the true value). -/
def bitLenFuel : Nat → Nat → Nat
  | 0, _ => 0
  | _ + 1, 0 => 0
  | fuel + 1, n + 1 => bitLenFuel fuel ((n + 1) / 2) + 1

/-- `Math.ceil(Math.log2 m)` for a positive integer `m` (and `0 ↦ 0`):
the least `k` with `m ≤ 2 ^ k`. -/
def ceilLog2 (m : Nat) : Nat := bitLenFuel m (m - 1)

/-- The loop body of `concatValues`, with the two accumulators
(`accWidth`, `accValue`).  A `none` element is JS `undefined`; destructuring
it throws a `TypeError`. -/
def concatGo : List (Option Value) → Nat → Int → Except EvalErr Value
  | [], accWidth, accValue => .ok ⟨accWidth, accValue⟩
  | none :: _, _, _ => .error .typeError
  | some v :: rest, accWidth, accValue =>
      if v.width = 0 then .error .concatWidth
      else if v.value < 0 then .error .concatNegative
      else
        concatGo rest (accWidth + v.width)
          (Int.lor (accValue * 2 ^ v.width) (asUintN v.width v.value))

/-- `concatValues` from `circuit.ts`. -/
def concatValues (vals : List (Option Value)) : Except EvalErr Value :=
  concatGo vals 0 0

mutual

/-- `evalExpr` from `circuit.ts`.  The result is `ok none` when the JS
function returns `undefined` (which happens only for a `register` lookup of
an unbound name, possibly forwarded through `cond`). -/
def evalExpr : Expr → Env → Except EvalErr (Option Value)
  | .constant v, _ =>
      if isIntLiteral v then
        -- width = Math.ceil(Math.log2(Number(v) + 1)); value = BigInt(v)
        let n := decDigitsToNat v.data
        .ok (some ⟨ceilLog2 (n + 1), (n : Int)⟩)
      else
        match parseWidthLit v with
        | none => .error .invalidConstant
        | some (width, base, digits) =>
            -- base codes: 98 = b, 104 = h, 100 = d (after toLowerCase)
            if base = 98 then
              match parseDigitsBase 2 digits with
              | none => .error .numberSyntax
              | some n => .ok (some ⟨width, asUintN width (n : Int)⟩)
            else if base = 104 then
              match parseDigitsBase 16 digits with
              | none => .error .numberSyntax
              | some n => .ok (some ⟨width, asUintN width (n : Int)⟩)
            else if base = 100 then
              match parseDigitsBase 10 digits with
              | none => .error .numberSyntax
              | some n => .ok (some ⟨width, asUintN width (n : Int)⟩)
            else .error .unknownBase
  | .register name, env => .ok (env name)
  | .bin_op op left right, env => do
      -- `const { width: lb, value: l } = evalExpr(expr.left, env)`:
      -- destructuring `undefined` throws before the right operand runs.
      let lres ← evalExpr left env
      let some lv := lres | throw .typeError
      let lb := lv.width
      let l := lv.value
      let rres ← evalExpr right env
      let some rv := rres | throw .typeError
      let r := rv.value
      match op with
      | "+" => pure (some ⟨lb, asUintN lb (l + r)⟩)
      | "-" => pure (some ⟨lb, asUintN lb (l - r)⟩)
      | "*" => pure (some ⟨lb, asUintN lb (l * r)⟩)
      | "/" => pure (some ⟨lb, asUintN lb (if r = 0 then 0 else Int.tdiv l r)⟩)
      | "&" => pure (some ⟨lb, Int.land l r⟩)
      | "|" => pure (some ⟨lb, Int.lor l r⟩)
      | "^" => pure (some ⟨lb, Int.xor l r⟩)
      | "<" => pure (some ⟨1, asUintN 1 (if l < r then 1 else 0)⟩)
      | ">" => pure (some ⟨1, asUintN 1 (if l > r then 1 else 0)⟩)
      | "<=" => pure (some ⟨1, asUintN 1 (if l ≤ r then 1 else 0)⟩)
      | ">=" => pure (some ⟨1, asUintN 1 (if l ≥ r then 1 else 0)⟩)
      | "==" => pure (some ⟨1, asUintN 1 (if l = r then 1 else 0)⟩)
      | "<<" => pure (some ⟨1, asUintN lb (jsShl l r)⟩)
      | ">>" => pure (some ⟨1, jsShr l r⟩)
      | ">>>" =>
          -- sign-extend l (assumed signed of width lb), then shift
          let isNegative := jsShr l ((lb : Int) - 1) ≠ 0
          let lExt := if isNegative then Int.lor l (jsNot (ones lb)) else l
          pure (some ⟨lb, asUintN lb (jsShr lExt r)⟩)
      | _ => throw .unknownBinOp
  | .un_op op e, env => do
      let res ← evalExpr e env
      let some v := res | throw .typeError
      let width := v.width
      let value := v.value
      match op with
      | "-" => pure (some ⟨width, asUintN width (-value)⟩)
      | "~" => pure (some ⟨width, asUintN width (jsNot value)⟩)
      | "!" => pure (some ⟨1, if value = 0 then 1 else 0⟩)
      | "|" => pure (some ⟨1, if value = 0 then 0 else 1⟩)
      | "&" => pure (some ⟨1, if asUintN width (jsNot value) = 0 then 1 else 0⟩)
      | _ => throw .unknownUnOp
  | .cond c t f, env => do
      let condition ← evalExpr c env
      -- `condition ? ... : ...` tests the truthiness of the returned JS
      -- value: any `Value` object is truthy (even {value: 0n}); only
      -- `undefined` is falsy.
      match condition with
      | some _ => evalExpr t env
      | none => evalExpr f env
  | .concat es, env => do
      let vals ← evalList es env
      (concatValues vals).map some
  | .repeatE e c, env => do
      let val ← evalExpr e env
      let cres ← evalExpr c env
      let some cv := cres | throw .typeError   -- `.value` on undefined
      let count := cv.value                    -- Number(...)
      if count ≤ 0 then throw .repeatCount
      else
        let some v := val | throw .typeError   -- `val.width` on undefined
        if v.width = 0 then pure (some ⟨0, 0⟩)
        else do
          let r ← concatValues (List.replicate count.toNat (some v))
          pure (some r)
  | .slice e s t, env => do
      let base := min s t
      let width := (s - t).natAbs + 1
      let res ← evalExpr e env
      let some val := res | throw .typeError   -- `val.width` on undefined
      if base + (width : Int) > (val.width : Int) then throw .sliceOutOfRange
      else pure (some ⟨width, asUintN width (jsShr val.value s)⟩)
  | .slice_dyn e s w, env => do
      let bres ← evalExpr s env
      let some bv := bres | throw .typeError   -- `.value` on undefined
      let res ← evalExpr e env
      let some val := res | throw .typeError   -- `val.width` on undefined
      -- out-of-range here is only a console.warn: evaluation proceeds
      pure (some ⟨w, asUintN w (jsShr val.value bv.value)⟩)
  | .select e i, env => do
      let res ← evalExpr e env
      let ires ← evalExpr i env
      let some idxv := ires | throw .typeError -- `Number(idxv.value)`
      let some val := res | throw .typeError   -- `val.width` / `val.value`
      -- out-of-range here is only a console.warn: evaluation proceeds
      pure (some ⟨1, Int.land (jsShr val.value idxv.value) 1⟩)

/-- `expr.exprs.map(e => evalExpr(e, env))`: left-to-right evaluation, the
first thrown exception propagates. -/
def evalList : List Expr → Env → Except EvalErr (List (Option Value))
  | [], _ => .ok []
  | e :: rest, env => do
      let v ← evalExpr e env
      let vs ← evalList rest env
      pure (v :: vs)

end

/-- The empty environment. -/
def emptyEnv : Env := fun _ => none

/-- Literal `8'hFF` (built with `quoteChar`). -/
def litHexFF : String := "8" ++ String.singleton quoteChar ++ "hFF"

/-- Literal `4'b1010`. -/
def litBin1010 : String := "4" ++ String.singleton quoteChar ++ "b1010"

/-- Literal `1'b0`. -/
def litBin0 : String := "1" ++ String.singleton quoteChar ++ "b0"

/-! ## Wires, modules and the dependency sorter (`topoSort`, `sortWires`) -/

/-- `Wire` from the circuit types used by `circuit.ts`. -/
structure Wire where
  name : String
  width : Nat
  value : Expr
  dep_list : List String

/-- An input port `{ name, width }`. -/
structure InputPort where
  name : String
  width : Nat

/-- `Module` from the circuit types. -/
structure Module where
  inputs : List InputPort
  wires : List Wire
  outputs : List String

/-- The hard failures of `topoSort`. -/
inductive TopoErr where
  /-- `Duplicate node name` -/
  | duplicateNode (name : String)
  /-- `Dependency not found` -/
  | depNotFound (name : String)
  /-- `Cycle detected: topological sort impossible` -/
  | cycleDetected
deriving DecidableEq, Repr

/-- `Map.get`: first (= only, keys are unique) binding of a key in an
insertion-ordered association list. -/
def alGet (k : String) : List (String × α) → Option α
  | [] => none
  | (k2, v) :: rest => if k2 = k then some v else alGet k rest

/-- `Map.set`: update the value in place (keeping the insertion position)
or append a new binding. -/
def alSet (k : String) (v : α) : List (String × α) → List (String × α)
  | [] => [(k, v)]
  | (k2, v2) :: rest =>
      if k2 = k then (k, v) :: rest else (k2, v2) :: alSet k v rest

/-- Step 1 of `topoSort`: build `nodeByName`, failing on a duplicate name.
(`{...m}` copies the wire object; copies are equal as values.) -/
def buildNodeMap : List Wire → List (String × Wire) →
    Except TopoErr (List (String × Wire))
  | [], acc => .ok acc
  | m :: rest, acc =>
      if (alGet m.name acc).isSome then .error (.duplicateNode m.name)
      else buildNodeMap rest (acc ++ [(m.name, m)])

/-- The inner loop of step 2 of `topoSort`: process the `dep_list` of the
wire called `name`, updating the in-degree map and the reverse adjacency
map.  In-degrees are JS numbers, modelled as `Int`. -/
def addDeps (nbn : List (String × Wire)) (inputs : List String)
    (name : String) : List String → List (String × Int) →
    List (String × List String) →
    Except TopoErr (List (String × Int) × List (String × List String))
  | [], ind, radj => .ok (ind, radj)
  | d :: rest, ind, radj =>
      if d ∈ inputs then addDeps nbn inputs name rest ind radj
      else if (alGet d nbn).isNone then .error (.depNotFound d)
      else
        addDeps nbn inputs name rest
          (alSet name ((alGet name ind).getD 0 + 1) ind)
          (alSet d ((alGet d radj).getD [] ++ [name]) radj)

/-- Step 2 of `topoSort`: iterate over `nodeByName.values()` building the
in-degree and reverse-adjacency maps. -/
def buildDeg (nbn : List (String × Wire)) (inputs : List String) :
    List (String × Wire) → List (String × Int) →
    List (String × List String) →
    Except TopoErr (List (String × Int) × List (String × List String))
  | [], ind, radj => .ok (ind, radj)
  | (name, w) :: rest, ind, radj => do
      let ind1 := alSet name ((alGet name ind).getD 0) ind
      let (ind2, radj2) ← addDeps nbn inputs name w.dep_list ind1 radj
      buildDeg nbn inputs rest ind2 radj2

/-- Placeholder for `nodeByName.get(n)!`; the non-null assertion is
justified because the loop only ever looks up registered names. -/
def defaultWire : Wire := ⟨"", 0, .constant "", []⟩

/-- The inner `for (const neighbor of revAdj.get(n) ?? [])` loop of step 4:
decrement each neighbour's in-degree, enqueueing it when it reaches 0. -/
def processNeighbors : List String → List (String × Int) → List String →
    List (String × Int) × List String
  | [], ind, queue => (ind, queue)
  | m :: rest, ind, queue =>
      let d := (alGet m ind).getD 0 - 1
      processNeighbors rest (alSet m d ind)
        (if d = 0 then queue ++ [m] else queue)

/-- Step 4 of `topoSort` (Kahn's loop).  The `while (queue.length)` loop is
fuel-driven; `kahnFuel` below over-approximates the iteration count (each
iteration removes one queue entry, and every enqueue is paired with a
distinct decrement of a positive in-degree), so the fuel never runs out. -/
def kahnLoop (nbn : List (String × Wire))
    (radj : List (String × List String)) :
    Nat → List (String × Int) → List String → List Wire → List Wire
  | 0, _, _, sorted => sorted
  | _ + 1, _, [], sorted => sorted
  | fuel + 1, ind, n :: queue, sorted =>
      let w := (alGet n nbn).getD defaultWire
      let (ind2, queue2) := processNeighbors ((alGet n radj).getD []) ind queue
      kahnLoop nbn radj fuel ind2 queue2 (sorted ++ [w])

/-- Upper bound on the number of iterations of Kahn's loop. -/
def kahnFuel (ind : List (String × Int)) (queue : List String) : Nat :=
  (ind.map (fun p => p.2.toNat)).sum + queue.length + 1

/-- `topoSort` from `circuit.ts`. -/
def topoSort (regs : List Wire) (inputs : List String) :
    Except TopoErr (List Wire) := do
  let nbn ← buildNodeMap regs []
  let (ind, radj) ← buildDeg nbn inputs nbn [] []
  let queue := (ind.filter (fun p => p.2 = 0)).map Prod.fst
  let sorted := kahnLoop nbn radj (kahnFuel ind queue) ind queue []
  if sorted.length ≠ nbn.length then throw .cycleDetected
  else pure sorted

/-- `sortWires` from `circuit.ts`:
`mod.wires = topoSort(mod.wires, ...); return mod;`.
The assignment mutates the module object the caller passed in, so the
function is modelled by explicit state passing: the result is the pair
(returned module, post-call value of the caller's module binding).  Both
components are the same object. -/
def sortWires (mod : Module) : Except TopoErr (Module × Module) :=
  (topoSort mod.wires (mod.inputs.map (fun i => i.name))).map
    (fun ws => ({ mod with wires := ws }, { mod with wires := ws }))

/-! ## Arithmetic facts about the literal width computation -/

theorem bitLenFuel_lt (fuel : Nat) : ∀ n, n ≤ fuel → n < 2 ^ bitLenFuel fuel n := by
  induction fuel with
  | zero =>
      intro n h
      have h0 : n = 0 := Nat.le_zero.mp h
      subst h0; simp [bitLenFuel]
  | succ fuel ih =>
      intro n h
      match n with
      | 0 => simp [bitLenFuel]
      | m + 1 =>
          have hlt : (m + 1) / 2 < m + 1 := Nat.div_lt_self (Nat.succ_pos m) (by norm_num)
          have hle : (m + 1) / 2 ≤ fuel := by omega
          have ihq := ih ((m + 1) / 2) hle
          have hmod := Nat.div_add_mod (m + 1) 2
          have hm2 : (m + 1) % 2 < 2 := Nat.mod_lt _ (by norm_num)
          have heq : bitLenFuel (fuel + 1) (m + 1) = bitLenFuel fuel ((m + 1) / 2) + 1 := rfl
          rw [heq, pow_succ]
          omega

theorem bitLenFuel_min (fuel : Nat) :
    ∀ n k, n ≤ fuel → n < 2 ^ k → bitLenFuel fuel n ≤ k := by
  induction fuel with
  | zero =>
      intro n k h _
      have h0 : n = 0 := Nat.le_zero.mp h
      subst h0; simp [bitLenFuel]
  | succ fuel ih =>
      intro n k h hk
      match n with
      | 0 => simp [bitLenFuel]
      | m + 1 =>
          match k with
          | 0 => simp at hk
          | k + 1 =>
              have hlt : (m + 1) / 2 < m + 1 :=
                Nat.div_lt_self (Nat.succ_pos m) (by norm_num)
              have hle : (m + 1) / 2 ≤ fuel := by omega
              have hq : (m + 1) / 2 < 2 ^ k := by
                rw [Nat.div_lt_iff_lt_mul (by norm_num)]
                have hp : 2 ^ (k + 1) = 2 ^ k * 2 := pow_succ 2 k
                omega
              have hih := ih ((m + 1) / 2) k hle hq
              have heq : bitLenFuel (fuel + 1) (m + 1) = bitLenFuel fuel ((m + 1) / 2) + 1 := rfl
              omega

/-- `ceilLog2 (n + 1)` is large enough: `n < 2 ^ ceilLog2 (n + 1)`. -/
theorem lt_two_pow_ceilLog2 (n : Nat) : n < 2 ^ ceilLog2 (n + 1) := by
  have h : ceilLog2 (n + 1) = bitLenFuel (n + 1) n := by simp [ceilLog2]
  rw [h]
  exact bitLenFuel_lt (n + 1) n (Nat.le_succ n)

/-- `ceilLog2 (n + 1)` is least: any `k` with `n < 2 ^ k` is at least it;
together with `lt_two_pow_ceilLog2` this says the computed width is
exactly `⌈log₂ (n + 1)⌉`. -/
theorem ceilLog2_le (n k : Nat) (hk : n < 2 ^ k) : ceilLog2 (n + 1) ≤ k := by
  have h : ceilLog2 (n + 1) = bitLenFuel (n + 1) n := by simp [ceilLog2]
  rw [h]
  exact bitLenFuel_min (n + 1) n k (Nat.le_succ n) hk

/-! ## Reduction lemmas for the `Except` monad -/

@[simp] theorem exceptBind_ok (a : α) (f : α → Except ε β) :
    (Except.ok a >>= f : Except ε β) = f a := rfl

@[simp] theorem exceptBind_error (e : ε) (f : α → Except ε β) :
    (Except.error e >>= f : Except ε β) = Except.error e := rfl

@[simp] theorem exceptPure_eq_ok (a : α) : (pure a : Except ε α) = Except.ok a := rfl

@[simp] theorem exceptThrow_eq_error (e : ε) :
    (throw e : Except ε α) = Except.error e := rfl

/-! ## Claim theorems about the evaluator -/

/-- Environment binding only `y` (to an 8-bit value 5), used by C2. -/
def envY : Env := fun n => if n = "y" then some ⟨8, 5⟩ else none

/-- C1: the claim that every `Value` returned by `evalExpr` satisfies
`value < 2^width` (every operation masks its result to its declared width)
is violated by the code: the bitwise `|` (and `^`) cases do not mask, so a
width-1 left operand OR-ed with a wider right operand returns
`{width: 1, value: 3}` with `3 ≥ 2^1`.  The environment here is empty, so
the (vacuous) binding invariant holds. -/
theorem evalExpr_width_invariant_violated :
    evalExpr (.constant "1") emptyEnv = .ok (some ⟨1, 1⟩) ∧
    evalExpr (.constant "2") emptyEnv = .ok (some ⟨2, 2⟩) ∧
    evalExpr (.bin_op "|" (.constant "1") (.constant "2")) emptyEnv
      = .ok (some ⟨1, 3⟩) ∧
    ¬((3 : Int) < 2 ^ 1) :=
  ⟨rfl, rfl, rfl, by decide⟩

/-- C2: the claim that a zero condition selects the false branch is
violated: `cond` tests the truthiness of the JS object returned for the
condition, which is truthy even when its `value` is `0n`, so the true
branch is always taken.  With the claim's own input
`cond(constant "0", register "x", register "y")` and `y ↦ {8,5}` bound but
`x` unbound, the code evaluates the (unselected-per-spec) true branch and
returns `undefined` instead of `y`'s value; with constant branches the
result is the true branch's value `{1,1}`, not the false branch's `{2,2}`. -/
theorem evalExpr_cond_truthiness_bug :
    evalExpr (.cond (.constant "0") (.register "x") (.register "y")) envY
      = .ok none ∧
    evalExpr (.register "y") envY = .ok (some ⟨8, 5⟩) ∧
    evalExpr (.cond (.constant "0") (.constant "1") (.constant "2")) emptyEnv
      = .ok (some ⟨1, 1⟩) :=
  ⟨rfl, rfl, rfl⟩

/-- C4 (counterexample): a static `slice` whose `base + width` exceeds the
source's width does NOT proceed softly — it throws the hard
`Slice out of range` error.  Here the source `1'b0` has width 1 and
`slice(_, 0, 1)` needs 2 bits. -/
theorem slice_static_oob_cex :
    evalExpr (.slice (.constant litBin0) 0 1) emptyEnv
      = .error .sliceOutOfRange := rfl

/-- C4 (amended): for every static `slice` whose normalized `base + width`
exceeds the width of the evaluated sub-expression, evaluation aborts with
the hard `Slice out of range` error (the soft-diagnostic proceed-and-mask
behaviour belongs to `slice_dyn`/`select`, not to static `slice`). -/
theorem slice_static_oob_raises (env : Env) (e : Expr) (s t : Int) (v : Value)
    (he : evalExpr e env = .ok (some v))
    (hoob : min s t + (((s - t).natAbs + 1 : Nat) : Int) > (v.width : Int)) :
    evalExpr (.slice e s t) env = .error .sliceOutOfRange := by
  simp only [evalExpr, he, exceptBind_ok]
  rw [if_pos hoob]
  rfl

/-- C4 witness: the amended theorem applied to the concrete out-of-range
slice of `1'b0`. -/
theorem slice_static_oob_raises_witness :
    evalExpr (.slice (.constant litBin0) 0 1) emptyEnv
      = .error .sliceOutOfRange :=
  slice_static_oob_raises emptyEnv (.constant litBin0) 0 1 ⟨1, 0⟩ rfl (by decide)

/-- C5 (counterexample): evaluating `register "x"` in an environment with
no binding for `x` does NOT raise: it returns JS `undefined` (`ok none`). -/
theorem register_missing_cex :
    evalExpr (.register "x") emptyEnv = .ok none := rfl

/-- C5 (amended): `register(name)` is a direct environment lookup that
returns whatever the environment holds — the bound `Value`, or JS
`undefined` when the binding is missing.  No error is raised by the lookup
itself; a hard `TypeError` occurs only when a consuming operation later
destructures the `undefined`. -/
theorem register_direct_lookup (env : Env) (name : String) :
    evalExpr (.register name) env = .ok (env name) := rfl

/-- C6: the claim that every arithmetic/bitwise operator produces a result
of the left operand's width, masked to it, is violated: the `<<` case
returns `width: 1` (while masking the value to the left width `lb`), so for
a width-2 left operand `3` the result is `{width: 1, value: 2}` — neither
of width 2 nor masked to its own width 1. -/
theorem binop_result_width_bug :
    evalExpr (.constant "3") emptyEnv = .ok (some ⟨2, 3⟩) ∧
    evalExpr (.bin_op "<<" (.constant "3") (.constant "1")) emptyEnv
      = .ok (some ⟨1, 2⟩) ∧
    (1 : Nat) ≠ 2 ∧ ¬((2 : Int) < 2 ^ 1) :=
  ⟨rfl, rfl, by decide, by decide⟩

/-- C9: literal parsing.  `8'hFF ⇒ {8, 255}`, `4'b1010 ⇒ {4, 10}`,
`42 ⇒ {6, 42}`; a bare decimal `n` gets width `ceilLog2 (n+1)`, which is
exactly `⌈log₂(n+1)⌉` (the least `k` with `n < 2^k`); and a literal
matching neither the plain-decimal form nor `<width>'<base><digits>` is a
hard error. -/
theorem constant_literal_parsing :
    (∀ env : Env, evalExpr (.constant litHexFF) env = .ok (some ⟨8, 255⟩)) ∧
    (∀ env : Env, evalExpr (.constant litBin1010) env = .ok (some ⟨4, 10⟩)) ∧
    (∀ env : Env, evalExpr (.constant "42") env = .ok (some ⟨6, 42⟩)) ∧
    (∀ (s : String) (env : Env), isIntLiteral s = true →
      evalExpr (.constant s) env
        = .ok (some ⟨ceilLog2 (decDigitsToNat s.data + 1),
                     (decDigitsToNat s.data : Int)⟩) ∧
      decDigitsToNat s.data < 2 ^ ceilLog2 (decDigitsToNat s.data + 1) ∧
      (∀ k, decDigitsToNat s.data < 2 ^ k →
        ceilLog2 (decDigitsToNat s.data + 1) ≤ k)) ∧
    (∀ (s : String) (env : Env), isIntLiteral s = false →
      parseWidthLit s = none →
      evalExpr (.constant s) env = .error .invalidConstant) := by
  refine ⟨fun env => rfl, fun env => rfl, fun env => rfl, ?_, ?_⟩
  · intro s env h
    refine ⟨by simp [evalExpr, h], lt_two_pow_ceilLog2 _, fun k hk => ceilLog2_le _ k hk⟩
  · intro s env h1 h2
    simp [evalExpr, h1, h2]

/-- C9 witness: the hard-error branch of `constant_literal_parsing`
instantiated at the unparsable literal `zz`, plus the decimal branch at
`42`. -/
theorem constant_literal_parsing_witness :
    evalExpr (.constant "zz") emptyEnv = .error .invalidConstant ∧
    evalExpr (.constant "42") emptyEnv = .ok (some ⟨6, 42⟩) :=
  ⟨constant_literal_parsing.2.2.2.2 "zz" emptyEnv (by decide) (by decide),
   (constant_literal_parsing.2.2.2.1 "42" emptyEnv (by decide)).1⟩

/-- C10: a `bin_op "/"` whose right operand evaluates to 0 does not raise:
the guard `r === 0n ? 0n : l / r` yields the value 0, masked to (hence of)
the left operand's width. -/
theorem div_by_zero_yields_zero (env : Env) (left right : Expr) (lv rv : Value)
    (hl : evalExpr left env = .ok (some lv))
    (hr : evalExpr right env = .ok (some rv)) (h0 : rv.value = 0) :
    evalExpr (.bin_op "/" left right) env = .ok (some ⟨lv.width, 0⟩) := by
  have hz : Int.emod 0 (2 ^ lv.width) = 0 := Int.zero_emod _
  simp [evalExpr, hl, hr, h0, asUintN, hz]

/-- C10 witness: `5 / 0` (left operand of width 3) evaluates to `{3, 0}`. -/
theorem div_by_zero_yields_zero_witness :
    evalExpr (.bin_op "/" (.constant "5") (.constant "0")) emptyEnv
      = .ok (some ⟨3, 0⟩) :=
  div_by_zero_yields_zero emptyEnv (.constant "5") (.constant "0")
    ⟨3, 5⟩ ⟨0, 0⟩ rfl rfl rfl

/-! ## Association-list lemmas -/

/-- The keys of an association list, in insertion order. -/
def keys (l : List (String × α)) : List String := l.map Prod.fst

@[simp] theorem keys_nil : keys ([] : List (String × α)) = [] := rfl

@[simp] theorem keys_cons (p : String × α) (l : List (String × α)) :
    keys (p :: l) = p.1 :: keys l := rfl

theorem keys_append (l1 l2 : List (String × α)) :
    keys (l1 ++ l2) = keys l1 ++ keys l2 := List.map_append _ _ _

theorem alGet_none_of_not_mem {k : String} {l : List (String × α)}
    (h : k ∉ keys l) : alGet k l = none := by
  induction l with
  | nil => rfl
  | cons p rest ih =>
      obtain ⟨k2, v⟩ := p
      simp only [keys_cons, List.mem_cons] at h
      push_neg at h
      simp [alGet, Ne.symm h.1, ih h.2]

theorem mem_keys_of_alGet {k : String} {l : List (String × α)} {v : α}
    (h : alGet k l = some v) : k ∈ keys l := by
  by_contra hc
  rw [alGet_none_of_not_mem hc] at h
  exact Option.noConfusion h

theorem mem_of_alGet {k : String} {l : List (String × α)} {v : α}
    (h : alGet k l = some v) : (k, v) ∈ l := by
  induction l with
  | nil => exact Option.noConfusion h
  | cons p rest ih =>
      obtain ⟨k2, v2⟩ := p
      by_cases he : k2 = k
      · subst he
        simp [alGet] at h
        subst h
        exact List.mem_cons_self _ _
      · simp only [alGet, if_neg he] at h
        exact List.mem_cons_of_mem _ (ih h)

theorem alGet_of_mem_nodup {k : String} {l : List (String × α)} {v : α}
    (hnd : (keys l).Nodup) (h : (k, v) ∈ l) : alGet k l = some v := by
  induction l with
  | nil => exact absurd h (List.not_mem_nil _)
  | cons p rest ih =>
      obtain ⟨k2, v2⟩ := p
      simp only [keys_cons, List.nodup_cons] at hnd
      rcases List.mem_cons.mp h with h1 | h1
      · simp only [Prod.mk.injEq] at h1
        simp [alGet, h1.1.symm, h1.2]
      · have hne : k2 ≠ k := by
          intro he
          subst he
          exact hnd.1 (by simpa [keys] using List.mem_map_of_mem Prod.fst h1)
        simp only [alGet, if_neg hne]
        exact ih hnd.2 h1

theorem alGet_append_left {k : String} {l1 l2 : List (String × α)} {v : α}
    (h : alGet k l1 = some v) : alGet k (l1 ++ l2) = some v := by
  induction l1 with
  | nil => exact Option.noConfusion h
  | cons p rest ih =>
      obtain ⟨k2, v2⟩ := p
      by_cases he : k2 = k
      · simp only [List.cons_append, alGet, if_pos he] at h ⊢
        exact h
      · simp only [List.cons_append, alGet, if_neg he] at h ⊢
        exact ih h

theorem alGet_append_right {k : String} {l1 l2 : List (String × α)}
    (h : alGet k l1 = none) : alGet k (l1 ++ l2) = alGet k l2 := by
  induction l1 with
  | nil => rfl
  | cons p rest ih =>
      obtain ⟨k2, v2⟩ := p
      by_cases he : k2 = k
      · simp [alGet, if_pos he] at h
      · simp only [List.cons_append, alGet, if_neg he] at h ⊢
        exact ih h

theorem alGet_append_cases {k : String} {l1 l2 : List (String × α)} {v : α}
    (h : alGet k (l1 ++ l2) = some v) :
    alGet k l1 = some v ∨ (alGet k l1 = none ∧ alGet k l2 = some v) := by
  cases h1 : alGet k l1 with
  | some w =>
      left
      rw [alGet_append_left h1] at h
      exact h
  | none =>
      right
      rw [alGet_append_right h1] at h
      exact ⟨rfl, h⟩

@[simp] theorem alGet_singleton_self (k : String) (v : α) :
    alGet k [(k, v)] = some v := by simp [alGet]

theorem alGet_alSet_self (k : String) (v : α) (l : List (String × α)) :
    alGet k (alSet k v l) = some v := by
  induction l with
  | nil => simp [alSet, alGet]
  | cons p rest ih =>
      obtain ⟨k2, v2⟩ := p
      by_cases he : k2 = k
      · simp [alSet, if_pos he, alGet]
      · simp only [alSet, if_neg he, alGet, if_neg he]
        exact ih

theorem alGet_alSet_ne {k2 k : String} (v : α) (l : List (String × α))
    (h : k2 ≠ k) : alGet k2 (alSet k v l) = alGet k2 l := by
  have hks : ¬(k = k2) := Ne.symm h
  induction l with
  | nil => simp [alSet, alGet, hks]
  | cons p rest ih =>
      obtain ⟨k3, v3⟩ := p
      by_cases he : k3 = k
      · subst he
        simp only [alSet, if_pos rfl, alGet, if_neg hks]
      · simp only [alSet, if_neg he, alGet]
        by_cases he2 : k3 = k2
        · simp [he2]
        · simp only [if_neg he2]
          exact ih

theorem keys_alSet_mem {k : String} (v : α) {l : List (String × α)}
    (h : k ∈ keys l) : keys (alSet k v l) = keys l := by
  induction l with
  | nil => exact absurd h (List.not_mem_nil _)
  | cons p rest ih =>
      obtain ⟨k2, v2⟩ := p
      by_cases he : k2 = k
      · simp [alSet, if_pos he, he]
      · simp only [keys_cons, List.mem_cons] at h
        rcases h with h1 | h1
        · exact absurd h1.symm he
        · simp [alSet, if_neg he, ih h1]

theorem keys_alSet_not_mem {k : String} (v : α) {l : List (String × α)}
    (h : k ∉ keys l) : keys (alSet k v l) = keys l ++ [k] := by
  induction l with
  | nil => simp [alSet, keys]
  | cons p rest ih =>
      obtain ⟨k2, v2⟩ := p
      simp only [keys_cons, List.mem_cons] at h
      push_neg at h
      simp [alSet, Ne.symm h.1, ih h.2]

theorem alGet_exists_of_mem_keys {k : String} {l : List (String × α)}
    (h : k ∈ keys l) : ∃ v, alGet k l = some v := by
  induction l with
  | nil => exact absurd h (List.not_mem_nil _)
  | cons p rest ih =>
      obtain ⟨k2, v2⟩ := p
      by_cases he : k2 = k
      · exact ⟨v2, by simp [alGet, he]⟩
      · simp only [keys_cons, List.mem_cons] at h
        rcases h with h1 | h1
        · exact absurd h1.symm he
        · obtain ⟨v, hv⟩ := ih h1
          exact ⟨v, by simp [alGet, he, hv]⟩

/-! ## Facts about `buildNodeMap` -/

theorem buildNodeMap_mono : ∀ (regs : List Wire) (acc nbn : List (String × Wire)),
    buildNodeMap regs acc = .ok nbn →
    ∀ k w, alGet k acc = some w → alGet k nbn = some w := by
  intro regs
  induction regs with
  | nil =>
      intro acc nbn h k w hk
      simp only [buildNodeMap, Except.ok.injEq] at h
      subst h
      exact hk
  | cons m rest ih =>
      intro acc nbn h k w hk
      by_cases hd : (alGet m.name acc).isSome = true
      · simp [buildNodeMap, hd] at h
      · simp only [buildNodeMap] at h
        rw [if_neg hd] at h
        exact ih _ _ h k w (alGet_append_left hk)

theorem buildNodeMap_spec : ∀ (regs : List Wire) (acc nbn : List (String × Wire)),
    buildNodeMap regs acc = .ok nbn →
    (keys acc).Nodup →
    (∀ k w, alGet k acc = some w → w.name = k) →
    ((keys nbn).Nodup ∧
     (∀ k w, alGet k nbn = some w → w.name = k) ∧
     (∀ k w, alGet k nbn = some w → alGet k acc = some w ∨ w ∈ regs) ∧
     (∀ w ∈ regs, alGet w.name nbn = some w)) := by
  intro regs
  induction regs with
  | nil =>
      intro acc nbn h hnd hnm
      simp only [buildNodeMap, Except.ok.injEq] at h
      subst h
      exact ⟨hnd, hnm, fun k w hk => Or.inl hk,
        fun w hw => absurd hw (List.not_mem_nil _)⟩
  | cons m rest ih =>
      intro acc nbn h hnd hnm
      by_cases hd : (alGet m.name acc).isSome = true
      · simp [buildNodeMap, hd] at h
      · simp only [buildNodeMap] at h
        rw [if_neg hd] at h
        have hnone : alGet m.name acc = none := by
          cases hx : alGet m.name acc with
          | none => rfl
          | some w => rw [hx] at hd; simp at hd
        have hnotmem : m.name ∉ keys acc := by
          intro hm
          obtain ⟨v, hv⟩ := alGet_exists_of_mem_keys hm
          rw [hv] at hnone
          exact Option.noConfusion hnone
        have hkeys2 : keys (acc ++ [(m.name, m)]) = keys acc ++ [m.name] := by
          rw [keys_append]
          rfl
        have hnd2 : (keys (acc ++ [(m.name, m)])).Nodup := by
          rw [hkeys2]
          exact List.Nodup.append hnd (List.nodup_singleton _)
            (by simpa using hnotmem)
        have hnm2 : ∀ k w, alGet k (acc ++ [(m.name, m)]) = some w → w.name = k := by
          intro k w hk
          rcases alGet_append_cases hk with h1 | ⟨_, h2⟩
          · exact hnm k w h1
          · by_cases he : m.name = k
            · have hw : w = m := by simpa [alGet, he] using h2.symm
              rw [hw]
              exact he
            · simp [alGet, he] at h2
        obtain ⟨hr1, hr2, hr3, hr4⟩ := ih _ _ h hnd2 hnm2
        refine ⟨hr1, hr2, ?_, ?_⟩
        · intro k w hk
          rcases hr3 k w hk with h1 | h1
          · rcases alGet_append_cases h1 with h2 | ⟨_, h3⟩
            · exact Or.inl h2
            · right
              by_cases he : m.name = k
              · have hw : w = m := by simpa [alGet, he] using h3.symm
                rw [hw]
                exact List.mem_cons_self _ _
              · simp [alGet, he] at h3
          · exact Or.inr (List.mem_cons_of_mem _ h1)
        · intro w hw
          rcases List.mem_cons.mp hw with h1 | h1
          · subst h1
            refine buildNodeMap_mono _ _ _ h _ _ ?_
            rw [alGet_append_right hnone]
            exact alGet_singleton_self _ _
          · exact hr4 w h1

/-! ## Facts about `buildDeg` / `addDeps` -/

/-- The dependencies of a wire that are not primary inputs, in order and
with multiplicity — exactly the `d`s for which `addDeps` takes neither the
`continue` nor the error path (when it succeeds). -/
def nonInputDeps (inputs : List String) (w : Wire) : List String :=
  w.dep_list.filter (fun d => !(decide (d ∈ inputs)))

/-- The reverse-adjacency list of a name (`revAdj.get(d) ?? []`). -/
def radjList (radj : List (String × List String)) (e : String) : List String :=
  (alGet e radj).getD []

theorem addDeps_spec (nbn : List (String × Wire)) (inputs : List String)
    (name : String) :
    ∀ (ds : List String) (ind : List (String × Int))
      (radj : List (String × List String)) (cur : Int),
      alGet name ind = some cur →
      ∀ (ind2 : List (String × Int)) (radj2 : List (String × List String)),
      addDeps nbn inputs name ds ind radj = .ok (ind2, radj2) →
      (alGet name ind2
          = some (cur + ((ds.filter (fun d => !(decide (d ∈ inputs)))).length : Int)) ∧
       (∀ x, x ≠ name → alGet x ind2 = alGet x ind) ∧
       keys ind2 = keys ind ∧
       (∀ e m, List.count m (radjList radj2 e)
          = List.count m (radjList radj e)
            + (if m = name
               then List.count e (ds.filter (fun d => !(decide (d ∈ inputs))))
               else 0)) ∧
       (∀ e m, m ∈ radjList radj2 e → m ∈ radjList radj e ∨ m = name) ∧
       (∀ d ∈ ds, d ∈ inputs ∨ d ∈ keys nbn)) := by
  intro ds
  induction ds with
  | nil =>
      intro ind radj cur hname ind2 radj2 h
      simp only [addDeps, Except.ok.injEq, Prod.mk.injEq] at h
      obtain ⟨h1, h2⟩ := h
      subst h1
      subst h2
      exact ⟨by simpa using hname, fun x _ => rfl, rfl, by simp,
        fun e m hm => Or.inl hm, by simp⟩
  | cons d rest ih =>
      intro ind radj cur hname ind2 radj2 h
      have hfilterT : ∀ (h2 : d ∉ inputs),
          (d :: rest).filter (fun x => !(decide (x ∈ inputs)))
            = d :: rest.filter (fun x => !(decide (x ∈ inputs))) := by
        intro h2
        simp [List.filter_cons, h2]
      by_cases hin : d ∈ inputs
      · -- the `continue` path
        simp only [addDeps, if_pos hin] at h
        obtain ⟨r1, r2, r3, r4, r5, r6⟩ := ih ind radj cur hname ind2 radj2 h
        have hfilter : (d :: rest).filter (fun x => !(decide (x ∈ inputs)))
            = rest.filter (fun x => !(decide (x ∈ inputs))) := by
          simp [List.filter_cons, hin]
        refine ⟨by rw [hfilter]; exact r1, r2, r3, ?_, r5, ?_⟩
        · intro e m
          rw [hfilter]
          exact r4 e m
        · intro x hx
          rcases List.mem_cons.mp hx with h1 | h1
          · subst h1
            exact Or.inl hin
          · exact r6 x h1
      · by_cases hfound : (alGet d nbn).isNone = true
        · simp [addDeps, if_neg hin, hfound] at h
        · -- the increment + push path
          simp only [addDeps, if_neg hin] at h
          rw [if_neg hfound] at h
          rw [hname] at h
          simp only [Option.getD_some] at h
          have hdmem : d ∈ keys nbn := by
            cases hx : alGet d nbn with
            | none => rw [hx] at hfound; simp at hfound
            | some w => exact mem_keys_of_alGet hx
          have hname1 : alGet name (alSet name (cur + 1) ind) = some (cur + 1) :=
            alGet_alSet_self _ _ _
          obtain ⟨r1, r2, r3, r4, r5, r6⟩ :=
            ih (alSet name (cur + 1) ind)
              (alSet d ((alGet d radj).getD [] ++ [name]) radj)
              (cur + 1) hname1 ind2 radj2 h
          have hfilter := hfilterT hin
          have hradj1e : ∀ e,
              radjList (alSet d ((alGet d radj).getD [] ++ [name]) radj) e
                = if e = d then radjList radj d ++ [name] else radjList radj e := by
            intro e
            by_cases hed : e = d
            · subst hed
              simp [radjList, alGet_alSet_self]
            · unfold radjList
              rw [alGet_alSet_ne _ _ hed, if_neg hed]
          refine ⟨?_, ?_, ?_, ?_, ?_, ?_⟩
          · rw [r1]
            have harith : (cur + 1)
                  + ((rest.filter (fun x => !(decide (x ∈ inputs)))).length : Int)
                = cur + (((d :: rest).filter
                    (fun x => !(decide (x ∈ inputs)))).length : Int) := by
              rw [hfilter, List.length_cons]
              push_cast
              ring
            rw [harith]
          · intro x hx
            rw [r2 x hx, alGet_alSet_ne _ _ hx]
          · rw [r3, keys_alSet_mem _ (mem_keys_of_alGet hname)]
          · intro e m
            have hr4 := r4 e m
            rw [hradj1e e] at hr4
            have hcnt : List.count e ((d :: rest).filter
                  (fun x => !(decide (x ∈ inputs))))
                = List.count e (rest.filter (fun x => !(decide (x ∈ inputs))))
                  + (if e = d then 1 else 0) := by
              rw [hfilter, List.count_cons]
              by_cases hed : e = d
              · simp [hed]
              · simp [hed, Ne.symm hed]
            by_cases hed : e = d
            · subst hed
              rw [if_pos rfl] at hr4
              rw [List.count_append] at hr4
              have hsing : List.count m [name] = if m = name then 1 else 0 := by
                by_cases hmn : m = name <;> simp [hmn]
              rw [hsing] at hr4
              rw [if_pos rfl] at hcnt
              by_cases hmn : m = name
              · simp only [if_pos hmn] at hr4 ⊢
                omega
              · simp only [if_neg hmn] at hr4 ⊢
                omega
            · rw [if_neg hed] at hr4
              rw [if_neg hed] at hcnt
              by_cases hmn : m = name
              · simp only [if_pos hmn] at hr4 ⊢
                omega
              · simp only [if_neg hmn] at hr4 ⊢
                omega
          · intro e m hm
            rcases r5 e m hm with h1 | h1
            · rw [hradj1e e] at h1
              by_cases hed : e = d
              · rw [if_pos hed] at h1
                rcases List.mem_append.mp h1 with h2 | h2
                · rw [hed]
                  exact Or.inl h2
                · right
                  simpa using h2
              · rw [if_neg hed] at h1
                exact Or.inl h1
            · exact Or.inr h1
          · intro x hx
            rcases List.mem_cons.mp hx with h1 | h1
            · subst h1
              exact Or.inr hdmem
            · exact r6 x h1

theorem buildDeg_spec (nbn : List (String × Wire)) (inputs : List String) :
    ∀ (pairs : List (String × Wire)) (ind : List (String × Int))
      (radj : List (String × List String)) (processed : List String),
      keys ind = processed →
      (∀ n w, alGet n nbn = some w → n ∈ processed →
        alGet n ind = some ((nonInputDeps inputs w).length : Int)) →
      (∀ e n w, alGet n nbn = some w → List.count n (radjList radj e)
          = if n ∈ processed then List.count e (nonInputDeps inputs w) else 0) →
      (∀ e m, m ∈ radjList radj e → m ∈ processed) →
      (processed ++ keys pairs).Nodup →
      (∀ p ∈ pairs, alGet p.1 nbn = some p.2) →
      ∀ ind2 radj2, buildDeg nbn inputs pairs ind radj = .ok (ind2, radj2) →
      (keys ind2 = processed ++ keys pairs ∧
       (∀ n w, alGet n nbn = some w → n ∈ processed ++ keys pairs →
          alGet n ind2 = some ((nonInputDeps inputs w).length : Int)) ∧
       (∀ e n w, alGet n nbn = some w → List.count n (radjList radj2 e)
          = if n ∈ processed ++ keys pairs
            then List.count e (nonInputDeps inputs w) else 0) ∧
       (∀ e m, m ∈ radjList radj2 e → m ∈ processed ++ keys pairs) ∧
       (∀ p ∈ pairs, ∀ d ∈ nonInputDeps inputs p.2, d ∈ keys nbn)) := by
  intro pairs
  induction pairs with
  | nil =>
      intro ind radj processed hk hdeg hcnt hmem _ _ ind2 radj2 h
      simp only [buildDeg, Except.ok.injEq, Prod.mk.injEq] at h
      obtain ⟨h1, h2⟩ := h
      subst h1
      subst h2
      simp only [keys_nil, List.append_nil]
      exact ⟨hk, hdeg, hcnt, hmem, by simp⟩
  | cons p rest ih =>
      obtain ⟨name, w⟩ := p
      intro ind radj processed hk hdeg hcnt hmem hnd hvals ind2 radj2 h
      have hwn : alGet name nbn = some w := hvals (name, w) (List.mem_cons_self _ _)
      have hnd2 : (processed ++ name :: keys rest).Nodup := by
        simpa [keys_cons] using hnd
      have hnameproc : name ∉ processed := by
        intro hc
        rcases List.nodup_append.mp hnd2 with ⟨_, _, hdisj⟩
        exact hdisj hc (List.mem_cons_self _ _)
      have hnone : alGet name ind = none := by
        apply alGet_none_of_not_mem
        rw [hk]
        exact hnameproc
      -- unfold one step of buildDeg
      simp only [buildDeg, hnone, Option.getD_none] at h
      cases haD : addDeps nbn inputs name w.dep_list (alSet name 0 ind) radj with
      | error e => rw [haD] at h; exact absurd h (by simp)
      | ok pA =>
          obtain ⟨indA, radjA⟩ := pA
          rw [haD] at h
          simp only [exceptBind_ok] at h
          obtain ⟨a1, a2, a3, a4, a5, a6⟩ :=
            addDeps_spec nbn inputs name w.dep_list (alSet name 0 ind) radj 0
              (alGet_alSet_self _ _ _) indA radjA haD
          have hkeysA : keys indA = processed ++ [name] := by
            rw [a3, keys_alSet_not_mem _ (by rw [hk]; exact hnameproc), hk]
          have hdegA : ∀ n w2, alGet n nbn = some w2 → n ∈ processed ++ [name] →
              alGet n indA = some ((nonInputDeps inputs w2).length : Int) := by
            intro n w2 hn hmemn
            rcases List.mem_append.mp hmemn with h1 | h1
            · have hne : n ≠ name := fun he => hnameproc (he ▸ h1)
              rw [a2 n hne, alGet_alSet_ne _ _ hne]
              exact hdeg n w2 hn h1
            · have he : n = name := by simpa using h1
              subst he
              rw [hwn] at hn
              have hw2 : w2 = w := (Option.some.inj hn).symm
              subst hw2
              simpa [nonInputDeps] using a1
          have hcntA : ∀ e n w2, alGet n nbn = some w2 →
              List.count n (radjList radjA e)
                = if n ∈ processed ++ [name]
                  then List.count e (nonInputDeps inputs w2) else 0 := by
            intro e n w2 hn
            have h4 := a4 e n
            by_cases hne : n = name
            · have hzero : List.count n (radjList radj e) = 0 := by
                rw [hcnt e n w2 hn, if_neg (by rw [hne]; exact hnameproc)]
              have hw2 : w2 = w := by
                rw [hne, hwn] at hn
                exact (Option.some.inj hn).symm
              have h4b := a4 e n
              rw [if_pos hne] at h4b
              rw [h4b, hzero]
              have hmemn : n ∈ processed ++ [name] := by simp [hne]
              rw [if_pos hmemn, hw2]
              simp [nonInputDeps]
            · have hmemn : (n ∈ processed ++ [name]) ↔ n ∈ processed := by
                simp [hne]
              rw [h4, if_neg hne, hcnt e n w2 hn]
              by_cases hp : n ∈ processed
              · rw [if_pos hp, if_pos (hmemn.mpr hp)]
                simp
              · rw [if_neg hp, if_neg (fun hc => hp (hmemn.mp hc))]
          have hmemA : ∀ e m, m ∈ radjList radjA e → m ∈ processed ++ [name] := by
            intro e m hm
            rcases a5 e m hm with h1 | h1
            · exact List.mem_append_left _ (hmem e m h1)
            · exact List.mem_append_right _ (by simpa using h1)
          have hndA : ((processed ++ [name]) ++ keys rest).Nodup := by
            rw [List.append_assoc]
            simpa using hnd2
          have hvalsA : ∀ p ∈ rest, alGet p.1 nbn = some p.2 :=
            fun p hp => hvals p (List.mem_cons_of_mem _ hp)
          obtain ⟨f1, f2, f3, f4, f5⟩ :=
            ih indA radjA (processed ++ [name]) hkeysA hdegA hcntA hmemA hndA
              hvalsA ind2 radj2 h
          have hre : (processed ++ [name]) ++ keys rest
              = processed ++ keys ((name, w) :: rest) := by
            rw [List.append_assoc]
            rfl
          refine ⟨by rw [f1, hre], ?_, ?_, ?_, ?_⟩
          · intro n w2 hn hmemn
            exact f2 n w2 hn (by rw [hre]; exact hmemn)
          · intro e n w2 hn
            rw [f3 e n w2 hn, hre]
          · intro e m hm
            rw [← hre]
            exact f4 e m hm
          · intro p hp
            rcases List.mem_cons.mp hp with h1 | h1
            · subst h1
              intro d hd
              have hd2 := List.mem_filter.mp hd
              rcases a6 d hd2.1 with hc | hc
              · exact absurd hc (by simpa using hd2.2)
              · exact hc
            · exact f5 p h1

/-! ## Counting lemmas for the remaining-dependency argument -/

theorem filterNotMem_decomp (deps E : List String) (n : String) (hn : n ∉ E) :
    (deps.filter (fun d => !(decide (d ∈ E)))).length
      = (deps.filter (fun d => !(decide (d ∈ E ++ [n])))).length
        + List.count n deps := by
  induction deps with
  | nil => simp
  | cons d rest ih =>
      by_cases hdn : d = n
      · subst hdn
        have h1 : (!(decide (d ∈ E))) = true := by simp [hn]
        have h2 : ¬((!(decide (d ∈ E ++ [d]))) = true) := by simp
        simp only [List.filter_cons]
        rw [if_pos h1, if_neg h2, List.count_cons, if_pos (beq_self_eq_true d)]
        simp only [List.length_cons]
        omega
      · have hiff : (d ∈ E ++ [n]) ↔ d ∈ E := by
          simp [List.mem_append, hdn]
        have hbne : ¬((d == n) = true) := by simp [hdn]
        by_cases hdE : d ∈ E
        · have h1 : ¬((!(decide (d ∈ E))) = true) := by simp [hdE]
          have h2 : ¬((!(decide (d ∈ E ++ [n]))) = true) := by
            have hx := hiff.mpr hdE
            simp [hx]
          simp only [List.filter_cons]
          rw [if_neg h1, if_neg h2, List.count_cons, if_neg hbne]
          omega
        · have h1 : (!(decide (d ∈ E))) = true := by simp [hdE]
          have h2 : (!(decide (d ∈ E ++ [n]))) = true := by
            have hx : d ∉ E ++ [n] := fun hx => hdE (hiff.mp hx)
            simp [hx]
          simp only [List.filter_cons]
          rw [if_pos h1, if_pos h2, List.count_cons, if_neg hbne]
          simp only [List.length_cons]
          omega

theorem count_le_filterNotMem (deps E : List String) (n : String) (hn : n ∉ E) :
    List.count n deps ≤ (deps.filter (fun d => !(decide (d ∈ E)))).length := by
  have h1 : List.count n (deps.filter (fun d => !(decide (d ∈ E))))
      = List.count n deps := List.count_filter (by simp [hn])
  rw [← h1]
  exact List.count_le_length _ _

theorem filterNotMem_le_mono (deps E : List String) (n : String) :
    (deps.filter (fun d => !(decide (d ∈ E ++ [n])))).length
      ≤ (deps.filter (fun d => !(decide (d ∈ E)))).length := by
  refine List.Sublist.length_le (List.monotone_filter_right _ ?_)
  intro a ha
  simp only [Bool.not_eq_true', decide_eq_false_iff_not] at ha ⊢
  exact fun hx => ha (List.mem_append_left _ hx)

/-! ## The topological-order invariant -/

/-- Names of a list of wires, in order. -/
def wireNames (L : List Wire) : List String := L.map Wire.name

@[simp] theorem wireNames_nil : wireNames [] = [] := rfl

@[simp] theorem wireNames_cons (w : Wire) (L : List Wire) :
    wireNames (w :: L) = w.name :: wireNames L := rfl

theorem wireNames_append (L1 L2 : List Wire) :
    wireNames (L1 ++ L2) = wireNames L1 ++ wireNames L2 := List.map_append _ _ _

/-- `TopoFrom inputs E0 L`: every wire of `L` has all its non-input
dependencies among `E0` plus the names of the wires before it in `L`. -/
def TopoFrom (inputs : List String) : List String → List Wire → Prop
  | _, [] => True
  | E0, w :: rest =>
      (∀ d ∈ nonInputDeps inputs w, d ∈ E0) ∧
        TopoFrom inputs (E0 ++ [w.name]) rest

theorem TopoFrom_append (inputs : List String) (w : Wire) :
    ∀ (L : List Wire) (E0 : List String), TopoFrom inputs E0 L →
      (∀ d ∈ nonInputDeps inputs w, d ∈ E0 ++ wireNames L) →
      TopoFrom inputs E0 (L ++ [w]) := by
  intro L
  induction L with
  | nil =>
      intro E0 _ hw
      exact ⟨by simpa using hw, trivial⟩
  | cons u rest ih =>
      intro E0 h hw
      obtain ⟨h1, h2⟩ := h
      refine ⟨h1, ih (E0 ++ [u.name]) h2 ?_⟩
      intro d hd
      have := hw d hd
      simpa [List.append_assoc] using this

theorem TopoFrom_mem (inputs : List String) (w : Wire) :
    ∀ (L : List Wire) (E0 : List String), TopoFrom inputs E0 L → w ∈ L →
      ∀ d ∈ nonInputDeps inputs w, d ∈ E0 ++ wireNames L := by
  intro L
  induction L with
  | nil =>
      intro E0 _ hw
      exact absurd hw (List.not_mem_nil _)
  | cons u rest ih =>
      intro E0 h hw d hd
      obtain ⟨h1, h2⟩ := h
      rcases List.mem_cons.mp hw with he | he
      · subst he
        exact List.mem_append_left _ (h1 d hd)
      · have := ih (E0 ++ [u.name]) h2 he d hd
        simpa [List.append_assoc] using this

theorem TopoFrom_index (inputs : List String) :
    ∀ (L : List Wire) (E0 : List String), TopoFrom inputs E0 L →
      ∀ i (hi : i < L.length) d,
        d ∈ nonInputDeps inputs (L.get ⟨i, hi⟩) →
        d ∈ E0 ∨ ∃ j, ∃ hj : j < L.length, j < i ∧ (L.get ⟨j, hj⟩).name = d := by
  intro L
  induction L with
  | nil =>
      intro E0 _ i hi
      exact absurd hi (by simp)
  | cons u rest ih =>
      intro E0 h i hi d hd
      obtain ⟨h1, h2⟩ := h
      match i with
      | 0 => exact Or.inl (h1 d hd)
      | i + 1 =>
          have hi2 : i < rest.length := by simpa using hi
          have hget : (u :: rest).get ⟨i + 1, hi⟩ = rest.get ⟨i, hi2⟩ := rfl
          rw [hget] at hd
          rcases ih (E0 ++ [u.name]) h2 i hi2 d hd with hc | ⟨j, hj, hlt, hname⟩
          · rcases List.mem_append.mp hc with hc1 | hc1
            · exact Or.inl hc1
            · refine Or.inr ⟨0, by simp, Nat.succ_pos _, ?_⟩
              have hd2 : d = u.name := by simpa using hc1
              exact hd2.symm
          · refine Or.inr ⟨j + 1, by simpa using Nat.succ_lt_succ hj, Nat.succ_lt_succ hlt, ?_⟩
            exact hname

/-! ## The neighbour-processing loop -/

theorem processNeighbors_spec :
    ∀ (ns : List String) (ind : List (String × Int)) (queue : List String),
      (∀ m ∈ ns, ∃ k, alGet m ind = some k ∧ (List.count m ns : Int) ≤ k) →
      ∀ ind2 queue2, processNeighbors ns ind queue = (ind2, queue2) →
      ((∀ x k, alGet x ind = some k →
          alGet x ind2 = some (k - List.count x ns)) ∧
       (∃ extra, queue2 = queue ++ extra ∧ extra.Nodup ∧
          (∀ m ∈ extra, m ∈ ns ∧ alGet m ind2 = some 0))) := by
  intro ns
  induction ns with
  | nil =>
      intro ind queue _ ind2 queue2 h
      simp only [processNeighbors, Prod.mk.injEq] at h
      obtain ⟨h1, h2⟩ := h
      subst h1
      subst h2
      refine ⟨fun x k hk => by simpa using hk, [], by simp, by simp, by simp⟩
  | cons m rest ih =>
      intro ind queue hent ind2 queue2 h
      obtain ⟨km, hkm, hcm⟩ := hent m (List.mem_cons_self _ _)
      have hcount_m : List.count m (m :: rest) = List.count m rest + 1 := by
        rw [List.count_cons]
        simp
      have hkm1 : (1 : Int) + List.count m rest ≤ km := by
        rw [hcount_m] at hcm
        push_cast at hcm
        omega
      simp only [processNeighbors, hkm, Option.getD_some] at h
      have hent2 : ∀ x ∈ rest, ∃ k, alGet x (alSet m (km - 1) ind) = some k ∧
          (List.count x rest : Int) ≤ k := by
        intro x hx
        by_cases hxm : x = m
        · subst hxm
          refine ⟨km - 1, alGet_alSet_self _ _ _, ?_⟩
          omega
        · obtain ⟨k, hk, hc⟩ := hent x (List.mem_cons_of_mem _ hx)
          refine ⟨k, ?_, ?_⟩
          · rw [alGet_alSet_ne _ _ hxm]
            exact hk
          · have hcc : List.count x (m :: rest) = List.count x rest := by
              rw [List.count_cons]
              simp [Ne.symm hxm]
            rw [hcc] at hc
            exact hc
      obtain ⟨c1, extra, hq, hnd, hmem⟩ :=
        ih (alSet m (km - 1) ind)
          (if km - 1 = 0 then queue ++ [m] else queue) hent2 ind2 queue2 h
      constructor
      · intro x k hk
        by_cases hxm : x = m
        · subst hxm
          have hkk : k = km := by
            rw [hk] at hkm
            exact Option.some.inj hkm
          subst hkk
          have hx2 := c1 x (k - 1) (alGet_alSet_self _ _ _)
          rw [hx2, hcount_m]
          congr 1
          push_cast
          ring
        · have hx2 := c1 x k (by rw [alGet_alSet_ne _ _ hxm]; exact hk)
          rw [hx2]
          congr 1
          rw [List.count_cons]
          simp [Ne.symm hxm]
      · by_cases hz : km - 1 = 0
        · rw [if_pos hz] at hq
          have hmrest : m ∉ rest := by
            intro hc
            have hpos : 0 < List.count m rest := List.count_pos_iff.mpr hc
            omega
          have hmextra : m ∉ extra := fun hc => hmrest (hmem m hc).1
          refine ⟨m :: extra, ?_, ?_, ?_⟩
          · rw [hq, List.append_assoc]
            rfl
          · exact List.nodup_cons.mpr ⟨hmextra, hnd⟩
          · intro x hx
            rcases List.mem_cons.mp hx with h1 | h1
            · subst h1
              refine ⟨List.mem_cons_self _ _, ?_⟩
              have hx2 := c1 x (km - 1) (alGet_alSet_self _ _ _)
              rw [hx2]
              have hcr : List.count x rest = 0 := List.count_eq_zero.mpr hmrest
              rw [hcr, hz]
              simp
            · obtain ⟨hin, hdeg⟩ := hmem x h1
              exact ⟨List.mem_cons_of_mem _ hin, hdeg⟩
        · rw [if_neg hz] at hq
          refine ⟨extra, hq, hnd, ?_⟩
          intro x hx
          obtain ⟨hin, hdeg⟩ := hmem x hx
          exact ⟨List.mem_cons_of_mem _ hin, hdeg⟩

/-! ## The Kahn-loop invariant -/

theorem kahnLoop_invariant (nbn : List (String × Wire)) (inputs : List String)
    (radj : List (String × List String))
    (hvalname : ∀ k w2, alGet k nbn = some w2 → w2.name = k)
    (hcnt : ∀ e n w2, alGet n nbn = some w2 →
      List.count n (radjList radj e) = List.count e (nonInputDeps inputs w2))
    (hradjmem : ∀ e m, m ∈ radjList radj e → m ∈ keys nbn) :
    ∀ (fuel : Nat) (ind : List (String × Int)) (queue : List String)
      (sorted : List Wire),
      (∀ n, n ∈ keys nbn → ∃ k, alGet n ind = some k) →
      TopoFrom inputs [] sorted →
      (∀ w2 ∈ sorted, alGet w2.name nbn = some w2) →
      (wireNames sorted ++ queue).Nodup →
      (∀ n ∈ queue, ∃ w2, alGet n nbn = some w2 ∧ alGet n ind = some 0 ∧
        ∀ d ∈ nonInputDeps inputs w2, d ∈ wireNames sorted) →
      (∀ n w2, alGet n nbn = some w2 → n ∉ wireNames sorted →
        ∀ k, alGet n ind = some k →
        (((nonInputDeps inputs w2).filter
            (fun d => !(decide (d ∈ wireNames sorted)))).length : Int) ≤ k) →
      (TopoFrom inputs [] (kahnLoop nbn radj fuel ind queue sorted) ∧
       (wireNames (kahnLoop nbn radj fuel ind queue sorted)).Nodup ∧
       (∀ w2 ∈ kahnLoop nbn radj fuel ind queue sorted,
          alGet w2.name nbn = some w2)) := by
  intro fuel
  induction fuel with
  | zero =>
      intro ind queue sorted _ h1 h2 h3 _ _
      exact ⟨h1, (List.nodup_append.mp h3).1, h2⟩
  | succ fuel ih =>
      intro ind queue sorted hind h1 h2 h3 h4 h5
      match queue with
      | [] => exact ⟨h1, (List.nodup_append.mp h3).1, h2⟩
      | n :: rest =>
          obtain ⟨wn, hwn, hdegn, hdepsn⟩ := h4 n (List.mem_cons_self _ _)
          have hwname : wn.name = n := hvalname n wn hwn
          have hnE : n ∉ wireNames sorted := by
            rcases List.nodup_append.mp h3 with ⟨_, _, hdisj⟩
            exact fun hc => hdisj hc (List.mem_cons_self _ _)
          -- every neighbour of the popped node is fresh
          have hfresh : ∀ m ∈ radjList radj n, m ∈ keys nbn ∧
              m ∉ wireNames sorted ∧ m ∉ (n :: rest) := by
            intro m hm
            have hkey : m ∈ keys nbn := hradjmem n m hm
            obtain ⟨wm, hwm⟩ := alGet_exists_of_mem_keys hkey
            have hcpos : 0 < List.count m (radjList radj n) :=
              List.count_pos_iff.mpr hm
            rw [hcnt n m wm hwm] at hcpos
            have hmdep : n ∈ nonInputDeps inputs wm := List.count_pos_iff.mp hcpos
            refine ⟨hkey, ?_, ?_⟩
            · intro hmE
              obtain ⟨ws, hws, hwsname⟩ := List.mem_map.mp hmE
              have hget := h2 ws hws
              rw [hwsname] at hget
              have hsame : ws = wm := Option.some.inj (hget.symm.trans hwm)
              have hsub := TopoFrom_mem inputs ws sorted [] h1 hws
              have hnmem : n ∈ [] ++ wireNames sorted :=
                hsub n (by rw [hsame]; exact hmdep)
              simp only [List.nil_append] at hnmem
              exact hnE hnmem
            · intro hmq
              rcases List.mem_cons.mp hmq with he | he
              · have hwm2 : wm = wn := by
                  rw [he] at hwm
                  exact Option.some.inj (hwm.symm.trans hwn)
                have : n ∈ wireNames sorted := hdepsn n (by rw [← hwm2]; exact hmdep)
                exact hnE this
              · obtain ⟨wm2, hwm2, _, hdeps2⟩ := h4 m (List.mem_cons_of_mem _ he)
                have hsame : wm2 = wm := Option.some.inj (hwm2.symm.trans hwm)
                have : n ∈ wireNames sorted :=
                  hdeps2 n (by rw [hsame]; exact hmdep)
                exact hnE this
          -- entry + count bound needed by processNeighbors_spec
          have hPNhyp : ∀ m ∈ radjList radj n, ∃ k, alGet m ind = some k ∧
              (List.count m (radjList radj n) : Int) ≤ k := by
            intro m hm
            obtain ⟨hkey, hmE, _⟩ := hfresh m hm
            obtain ⟨wm, hwm⟩ := alGet_exists_of_mem_keys hkey
            obtain ⟨k, hk⟩ := hind m hkey
            refine ⟨k, hk, ?_⟩
            have hle := h5 m wm hwm hmE k hk
            have hcmeq := hcnt n m wm hwm
            have hcle : List.count n (nonInputDeps inputs wm)
                ≤ ((nonInputDeps inputs wm).filter
                    (fun d => !(decide (d ∈ wireNames sorted)))).length :=
              count_le_filterNotMem _ _ _ hnE
            rw [hcmeq]
            have hcle2 : (List.count n (nonInputDeps inputs wm) : Int)
                ≤ (((nonInputDeps inputs wm).filter
                    (fun d => !(decide (d ∈ wireNames sorted)))).length : Int) := by
              exact_mod_cast hcle
            exact le_trans hcle2 hle
          rcases hpn : processNeighbors (radjList radj n) ind rest with ⟨ind2, queue2⟩
          obtain ⟨c1, extra, hq, hndex, hexmem⟩ :=
            processNeighbors_spec (radjList radj n) ind rest hPNhyp ind2 queue2 hpn
          have hunfold : kahnLoop nbn radj (fuel + 1) ind (n :: rest) sorted
              = kahnLoop nbn radj fuel ind2 queue2
                  (sorted ++ [(alGet n nbn).getD defaultWire]) := by
            have hpn2 : processNeighbors ((alGet n radj).getD []) ind rest
                = (ind2, queue2) := hpn
            simp only [kahnLoop, hpn2]
          have hwget : (alGet n nbn).getD defaultWire = wn := by
            rw [hwn]
            rfl
          rw [hunfold, hwget]
          have hE2 : wireNames (sorted ++ [wn]) = wireNames sorted ++ [n] := by
            rw [wireNames_append]
            simp [hwname]
          -- freshness transferred to extra
          have hexfresh : ∀ m ∈ extra, m ∈ keys nbn ∧ m ∉ wireNames sorted ∧
              m ∉ (n :: rest) := fun m hm => hfresh m (hexmem m hm).1
          -- the new per-key lower bound (needed twice below)
          have h5b : ∀ n2 w2, alGet n2 nbn = some w2 →
              n2 ∉ wireNames (sorted ++ [wn]) →
              ∀ k2, alGet n2 ind2 = some k2 →
              (((nonInputDeps inputs w2).filter
                  (fun d => !(decide (d ∈ wireNames (sorted ++ [wn]))))).length : Int)
                ≤ k2 := by
            intro n2 w2 hn2 hn2E k2 hk2
            rw [hE2] at hn2E
            have hn2E1 : n2 ∉ wireNames sorted :=
              fun hc => hn2E (List.mem_append_left _ hc)
            have hn2n : n2 ≠ n := by
              intro he
              exact hn2E (List.mem_append_right _ (by simp [he]))
            obtain ⟨k, hk⟩ := hind n2 (mem_keys_of_alGet hn2)
            have hnew := c1 n2 k hk
            have hkk : k2 = k - List.count n2 (radjList radj n) :=
              Option.some.inj (hk2.symm.trans hnew)
            have hold := h5 n2 w2 hn2 hn2E1 k hk
            have hcmeq := hcnt n n2 w2 hn2
            have hdecomp := filterNotMem_decomp (nonInputDeps inputs w2)
              (wireNames sorted) n hnE
            rw [hE2]
            omega
          refine ih ind2 queue2 (sorted ++ [wn]) ?_ ?_ ?_ ?_ ?_ h5b
          · -- every key still has an entry
            intro n2 hkey
            obtain ⟨k, hk⟩ := hind n2 hkey
            exact ⟨k - List.count n2 (radjList radj n), c1 n2 k hk⟩
          · -- the emitted prefix stays topologically sorted
            refine TopoFrom_append inputs wn sorted [] h1 ?_
            intro d hd
            simpa using hdepsn d hd
          · -- emitted wires are registered under their own names
            intro w2 hw2
            rcases List.mem_append.mp hw2 with hc | hc
            · exact h2 w2 hc
            · have : w2 = wn := by simpa using hc
              rw [this, hwname]
              exact hwn
          · -- no name is emitted or queued twice
            rw [hE2, hq, ← List.append_assoc]
            refine List.nodup_append.mpr ⟨?_, hndex, ?_⟩
            · have hre : wireNames sorted ++ [n] ++ rest
                  = wireNames sorted ++ (n :: rest) := by
                rw [List.append_assoc]
                rfl
              rw [hre]
              exact h3
            · intro a haX haE
              obtain ⟨_, haE1, haq⟩ := hexfresh a haE
              rcases List.mem_append.mp haX with hc | hc
              · rcases List.mem_append.mp hc with hc2 | hc2
                · exact haE1 hc2
                · have ha2 : a = n := by simpa using hc2
                  exact haq (ha2 ▸ List.mem_cons_self _ _)
              · exact haq (List.mem_cons_of_mem _ hc)
          · -- queue members: registered, in-degree 0, all deps emitted
            intro m hmq
            rcases List.mem_append.mp (hq ▸ hmq) with hc | hc
            · obtain ⟨wm, hwm, hdeg0, hdeps0⟩ := h4 m (List.mem_cons_of_mem _ hc)
              have hnotns : m ∉ radjList radj n := by
                intro hns
                exact (hfresh m hns).2.2 (List.mem_cons_of_mem _ hc)
              have hcnt0 : List.count m (radjList radj n) = 0 :=
                List.count_eq_zero.mpr hnotns
              have hdeg2 := c1 m 0 hdeg0
              rw [hcnt0] at hdeg2
              refine ⟨wm, hwm, by simpa using hdeg2, ?_⟩
              intro d hd
              rw [hE2]
              exact List.mem_append_left _ (hdeps0 d hd)
            · obtain ⟨_, hdeg0⟩ := hexmem m hc
              obtain ⟨hkey, hmE, hmq2⟩ := hexfresh m hc
              obtain ⟨wm, hwm⟩ := alGet_exists_of_mem_keys hkey
              have hmE2 : m ∉ wireNames (sorted ++ [wn]) := by
                rw [hE2]
                intro hcx
                rcases List.mem_append.mp hcx with hc2 | hc2
                · exact hmE hc2
                · exact hmq2 (by simp at hc2; simp [hc2])
              have hrem := h5b m wm hwm hmE2 0 hdeg0
              have hrem0 : ((nonInputDeps inputs wm).filter
                  (fun d => !(decide (d ∈ wireNames (sorted ++ [wn]))))).length = 0 := by
                omega
              refine ⟨wm, hwm, hdeg0, ?_⟩
              intro d hd
              have hfil := List.length_eq_zero.mp hrem0
              have := List.filter_eq_nil_iff.mp hfil d hd
              simpa using this

/-! ## Dissecting a successful `topoSort` run -/

@[simp] theorem exceptMap_ok (f : α → β) (a : α) :
    (Except.map f (Except.ok a) : Except ε β) = Except.ok (f a) := rfl

@[simp] theorem exceptMap_error (f : α → β) (e : ε) :
    (Except.map f (Except.error e) : Except ε β) = Except.error e := rfl

theorem initQueue_props (ind : List (String × Int)) (hnd : (keys ind).Nodup) :
    ((ind.filter (fun p => p.2 = 0)).map Prod.fst).Nodup ∧
    (∀ n ∈ (ind.filter (fun p => p.2 = 0)).map Prod.fst,
      alGet n ind = some 0) := by
  constructor
  · have hsub : ((ind.filter (fun p => decide (p.2 = 0))).map Prod.fst).Sublist
        (ind.map Prod.fst) := (List.filter_sublist ind).map Prod.fst
    exact hsub.nodup hnd
  · intro n hn
    obtain ⟨p, hp, hp1⟩ := List.mem_map.mp hn
    obtain ⟨hpmem, hpz⟩ := List.mem_filter.mp hp
    have hz : p.2 = 0 := of_decide_eq_true hpz
    have : alGet p.1 ind = some p.2 := alGet_of_mem_nodup hnd (by
      rw [show (p.1, p.2) = p from rfl]
      exact hpmem)
    rw [hp1] at this
    rw [this, hz]

theorem topoSort_ok_elim (regs : List Wire) (inputs : List String)
    (ws : List Wire) (h : topoSort regs inputs = .ok ws) :
    ∃ nbn ind radj queue,
      buildNodeMap regs [] = .ok nbn ∧
      buildDeg nbn inputs nbn [] [] = .ok (ind, radj) ∧
      queue = (ind.filter (fun p => p.2 = 0)).map Prod.fst ∧
      ws = kahnLoop nbn radj (kahnFuel ind queue) ind queue [] ∧
      ws.length = nbn.length := by
  cases hb : buildNodeMap regs [] with
  | error e => simp [topoSort, hb] at h
  | ok nbn =>
      cases hd : buildDeg nbn inputs nbn [] [] with
      | error e => simp [topoSort, hb, hd] at h
      | ok p =>
          obtain ⟨ind, radj⟩ := p
          simp only [topoSort, hb, hd, exceptBind_ok] at h
          split at h
          · simp at h
          · rename_i hcond
            push_neg at hcond
            simp only [exceptPure_eq_ok, Except.ok.injEq] at h
            refine ⟨nbn, ind, radj, _, rfl, hd, rfl, h.symm, ?_⟩
            rw [← h]
            exact hcond

/-- Everything a successful `topoSort` run guarantees: the output is
topologically ordered, has pairwise-distinct names, consists of input
wires, contains every input wire, and name-identifies wires uniquely. -/
theorem topoSort_ok_props (regs : List Wire) (inputs : List String)
    (ws : List Wire) (h : topoSort regs inputs = .ok ws) :
    TopoFrom inputs [] ws ∧ (wireNames ws).Nodup ∧
    (∀ w ∈ ws, w ∈ regs) ∧ (∀ w ∈ regs, w ∈ ws) ∧
    (∀ w ∈ regs, ∀ w2 ∈ ws, w2.name = w.name → w2 = w) := by
  obtain ⟨nbn, ind, radj, queue, hb, hd, hqdef, hws, hlen⟩ :=
    topoSort_ok_elim regs inputs ws h
  obtain ⟨hN1, hN2, hN3, hN4⟩ := buildNodeMap_spec regs [] nbn hb
    List.nodup_nil (fun k w hk => absurd hk (by simp [alGet]))
  have hvals : ∀ p ∈ nbn, alGet p.1 nbn = some p.2 := by
    intro p hp
    exact alGet_of_mem_nodup hN1 (by
      rw [show (p.1, p.2) = p from rfl]
      exact hp)
  obtain ⟨hD1, hD2, hD3, hD4, _⟩ := buildDeg_spec nbn inputs nbn [] [] []
    rfl (by simp) (by intro e n w _; simp [radjList, alGet]) (by simp [radjList, alGet])
    (by simpa using hN1) hvals ind radj hd
  simp only [List.nil_append] at hD1 hD2 hD3 hD4
  -- static hypotheses of the loop invariant
  have hcnt : ∀ e n w2, alGet n nbn = some w2 →
      List.count n (radjList radj e) = List.count e (nonInputDeps inputs w2) := by
    intro e n w2 hn
    rw [hD3 e n w2 hn, if_pos (mem_keys_of_alGet hn)]
  have hvalname : ∀ k w2, alGet k nbn = some w2 → w2.name = k := hN2
  -- initial-state invariants
  obtain ⟨hqnd, hqdeg⟩ := initQueue_props ind (by rw [hD1]; exact hN1)
  have hqkey : ∀ n ∈ queue, n ∈ keys nbn := by
    intro n hn
    rw [hqdef] at hn
    obtain ⟨p, hp, hp1⟩ := List.mem_map.mp hn
    have hpmem := (List.mem_filter.mp hp).1
    rw [← hD1, ← hp1]
    exact List.mem_map_of_mem Prod.fst hpmem
  have hinit4 : ∀ n ∈ queue, ∃ w2, alGet n nbn = some w2 ∧ alGet n ind = some 0 ∧
      ∀ d ∈ nonInputDeps inputs w2, d ∈ wireNames ([] : List Wire) := by
    intro n hn
    obtain ⟨w2, hw2⟩ := alGet_exists_of_mem_keys (hqkey n hn)
    have hz : alGet n ind = some 0 := hqdeg n (hqdef ▸ hn)
    refine ⟨w2, hw2, hz, ?_⟩
    have hlenz := hD2 n w2 hw2 (mem_keys_of_alGet hw2)
    rw [hz] at hlenz
    have : ((nonInputDeps inputs w2).length : Int) = 0 :=
      (Option.some.inj hlenz).symm
    have hnil : nonInputDeps inputs w2 = [] := by
      have : (nonInputDeps inputs w2).length = 0 := by exact_mod_cast this
      exact List.length_eq_zero.mp this
    intro d hd
    rw [hnil] at hd
    exact absurd hd (List.not_mem_nil _)
  have hinit5 : ∀ n w2, alGet n nbn = some w2 → n ∉ wireNames ([] : List Wire) →
      ∀ k, alGet n ind = some k →
      (((nonInputDeps inputs w2).filter
          (fun d => !(decide (d ∈ wireNames ([] : List Wire))))).length : Int) ≤ k := by
    intro n w2 hn _ k hk
    have hval := hD2 n w2 hn (mem_keys_of_alGet hn)
    rw [hk] at hval
    have hkv : ((nonInputDeps inputs w2).length : Int) = k :=
      (Option.some.inj hval).symm
    have hfeq : (nonInputDeps inputs w2).filter
        (fun d => !(decide (d ∈ wireNames ([] : List Wire)))) = nonInputDeps inputs w2 := by
      simp
    rw [hfeq, hkv]
  obtain ⟨hr1, hr2, hr3⟩ := kahnLoop_invariant nbn inputs radj hvalname hcnt
    (fun e m hm => hD4 e m hm) (kahnFuel ind queue) ind queue []
    (fun n hn => alGet_exists_of_mem_keys (by rw [hD1]; exact hn))
    trivial (by simp)
    (by simp only [wireNames_nil, List.nil_append]; rw [hqdef]; exact hqnd)
    hinit4 hinit5
  rw [← hws] at hr1 hr2 hr3
  have hmem_regs : ∀ w ∈ ws, w ∈ regs := by
    intro w hw
    rcases hN3 w.name w (hr3 w hw) with hc | hc
    · simp [alGet] at hc
    · exact hc
  have hcomplete : ∀ w ∈ regs, w ∈ ws := by
    intro w hw
    -- pigeonhole on names
    have hsubkeys : ∀ x ∈ wireNames ws, x ∈ keys nbn := by
      intro x hx
      obtain ⟨u, hu, hux⟩ := List.mem_map.mp hx
      rw [← hux]
      exact mem_keys_of_alGet (hr3 u hu)
    have hlen2 : (keys nbn).length ≤ (wireNames ws).length := by
      have h1 : (wireNames ws).length = ws.length := List.length_map _ _
      have h2 : (keys nbn).length = nbn.length := List.length_map _ _
      omega
    have hfs : (keys nbn).toFinset ⊆ (wireNames ws).toFinset := by
      have hsub2 : (wireNames ws).toFinset ⊆ (keys nbn).toFinset := by
        intro x hx
        exact List.mem_toFinset.mpr (hsubkeys x (List.mem_toFinset.mp hx))
      have hcard : (keys nbn).toFinset.card ≤ (wireNames ws).toFinset.card := by
        rw [List.toFinset_card_of_nodup hr2, List.toFinset_card_of_nodup hN1]
        exact hlen2
      rw [Finset.eq_of_subset_of_card_le hsub2 hcard]
    have hnamemem : w.name ∈ wireNames ws := by
      have : w.name ∈ keys nbn := mem_keys_of_alGet (hN4 w hw)
      exact List.mem_toFinset.mp (hfs (List.mem_toFinset.mpr this))
    obtain ⟨u, hu, hux⟩ := List.mem_map.mp hnamemem
    have hu2 : alGet u.name nbn = some u := hr3 u hu
    rw [hux] at hu2
    have : u = w := Option.some.inj (hu2.symm.trans (hN4 w hw))
    rw [← this]
    exact hu
  have huniq : ∀ w ∈ regs, ∀ w2 ∈ ws, w2.name = w.name → w2 = w := by
    intro w hw w2 hw2 hname
    have h1 : alGet w2.name nbn = some w2 := hr3 w2 hw2
    rw [hname] at h1
    exact Option.some.inj (h1.symm.trans (hN4 w hw))
  exact ⟨hr1, hr2, hmem_regs, hcomplete, huniq⟩

/-! ## Claim theorems about the dependency sorter -/

/-- C3: for every wire list and input-name set on which `topoSort`
succeeds, every name in a returned wire's `dep_list` that is not a primary
input is the name of a wire at a strictly earlier index of the returned
list. -/
theorem topoSort_topological (regs : List Wire) (inputs : List String)
    (ws : List Wire) (h : topoSort regs inputs = .ok ws) :
    ∀ i (hi : i < ws.length) d, d ∈ (ws.get ⟨i, hi⟩).dep_list → d ∉ inputs →
      ∃ j, ∃ hj : j < ws.length, j < i ∧ (ws.get ⟨j, hj⟩).name = d := by
  obtain ⟨htopo, _, _, _, _⟩ := topoSort_ok_props regs inputs ws h
  intro i hi d hd hdin
  have hdmem : d ∈ nonInputDeps inputs (ws.get ⟨i, hi⟩) :=
    List.mem_filter.mpr ⟨hd, by simpa using hdin⟩
  rcases TopoFrom_index inputs ws [] htopo i hi d hdmem with hc | hres
  · exact absurd hc (List.not_mem_nil _)
  · exact hres

/-- Acyclic two-wire example: `a` is independent, `b` reads `a`. -/
def wA : Wire := ⟨"a", 1, .constant "1", []⟩

/-- Second wire of the acyclic example. -/
def wB : Wire := ⟨"b", 1, .register "a", ["a"]⟩

/-- C3 witness: `topoSort [wB, wA] []` succeeds with `[wA, wB]`, and the
dependency `a` of the wire at index 1 indeed sits at an earlier index. -/
theorem topoSort_topological_witness :
    ∃ j, ∃ hj : j < ([wA, wB] : List Wire).length, j < 1 ∧
      (([wA, wB] : List Wire).get ⟨j, hj⟩).name = "a" :=
  topoSort_topological [wB, wA] [] [wA, wB] rfl 1 (by decide) "a" (by decide)
    (by decide)

/-- C7: (1) whenever two distinct wires `a` and `b` list each other's name
among their dependencies (and those names are not primary inputs),
`topoSort` cannot succeed on any wire list containing them; (2) whenever
Kahn's loop emits fewer wires than are registered in the name map,
`topoSort` raises the cycle-detected error rather than returning a partial
order. -/
theorem topoSort_cycle_detection :
    (∀ (regs : List Wire) (inputs : List String) (a b : Wire),
      a ∈ regs → b ∈ regs → a.name ≠ b.name →
      b.name ∈ a.dep_list → a.name ∈ b.dep_list →
      b.name ∉ inputs → a.name ∉ inputs →
      ∀ ws, topoSort regs inputs ≠ .ok ws) ∧
    (∀ (regs : List Wire) (inputs : List String) (nbn : List (String × Wire))
       (ind : List (String × Int)) (radj : List (String × List String)),
      buildNodeMap regs [] = .ok nbn →
      buildDeg nbn inputs nbn [] [] = .ok (ind, radj) →
      (kahnLoop nbn radj
          (kahnFuel ind ((ind.filter (fun p => p.2 = 0)).map Prod.fst))
          ind ((ind.filter (fun p => p.2 = 0)).map Prod.fst) []).length
        < nbn.length →
      topoSort regs inputs = .error .cycleDetected) := by
  constructor
  · intro regs inputs a b haR hbR hne hdepAB hdepBA hbnotin hanotin ws hok
    obtain ⟨htopo, hnodup, _, hall, _⟩ := topoSort_ok_props regs inputs ws hok
    obtain ⟨⟨ia, hia⟩, hgeta⟩ := List.mem_iff_get.mp (hall a haR)
    obtain ⟨⟨ib, hib⟩, hgetb⟩ := List.mem_iff_get.mp (hall b hbR)
    have hinj : ∀ (i1 i2 : Nat) (h1 : i1 < ws.length) (h2 : i2 < ws.length),
        (ws.get ⟨i1, h1⟩).name = (ws.get ⟨i2, h2⟩).name → i1 = i2 := by
      intro i1 i2 h1 h2 hcc
      have hlen1 : i1 < (wireNames ws).length := by
        simpa [wireNames] using h1
      have hlen2 : i2 < (wireNames ws).length := by
        simpa [wireNames] using h2
      have hg : (wireNames ws)[i1] = (wireNames ws)[i2] := by
        simp only [wireNames, List.getElem_map]
        simpa [List.get_eq_getElem] using hcc
      exact (hnodup.getElem_inj_iff).mp hg
    have hmemA : b.name ∈ nonInputDeps inputs (ws.get ⟨ia, hia⟩) := by
      rw [hgeta]
      exact List.mem_filter.mpr ⟨hdepAB, by simpa using hbnotin⟩
    rcases TopoFrom_index inputs ws [] htopo ia hia b.name hmemA with
      hc | ⟨jb, hjb, hlt1, hname1⟩
    · exact absurd hc (List.not_mem_nil _)
    have hjb_ib : jb = ib := hinj jb ib hjb hib (by rw [hname1, hgetb])
    have hmemB : a.name ∈ nonInputDeps inputs (ws.get ⟨ib, hib⟩) := by
      rw [hgetb]
      exact List.mem_filter.mpr ⟨hdepBA, by simpa using hanotin⟩
    rcases TopoFrom_index inputs ws [] htopo ib hib a.name hmemB with
      hc | ⟨ja, hja, hlt2, hname2⟩
    · exact absurd hc (List.not_mem_nil _)
    have hja_ia : ja = ia := hinj ja ia hja hia (by rw [hname2, hgeta])
    omega
  · intro regs inputs nbn ind radj hb hd hlen
    simp only [topoSort, hb, hd, exceptBind_ok]
    split
    · rfl
    · rename_i hcond
      push_neg at hcond
      exact absurd hcond (Nat.ne_of_lt hlen)

/-- Two mutually-dependent wires (the claim's `a` and `b`). -/
def wcA : Wire := ⟨"a", 1, .register "b", ["b"]⟩

/-- Second wire of the two-cycle. -/
def wcB : Wire := ⟨"b", 1, .register "a", ["a"]⟩

/-- C7 witness: on the concrete two-cycle `a ↔ b`, the loop emits 0 < 2
wires, so `topoSort` reports the cycle error. -/
theorem topoSort_cycle_detection_witness :
    topoSort [wcA, wcB] [] = .error .cycleDetected :=
  topoSort_cycle_detection.2 [wcA, wcB] []
    [("a", wcA), ("b", wcB)] [("a", 1), ("b", 1)] [("b", ["a"]), ("a", ["b"])]
    rfl rfl (by decide)

/-- The module `{inputs: [], wires: [wB, wA], outputs: ["b"]}` (wires
deliberately out of dependency order). -/
def m8 : Module := ⟨[], [wB, wA], ["b"]⟩

/-- The same module after `sortWires` has reordered (and thereby
overwritten) its wires. -/
def m8s : Module := ⟨[], [wA, wB], ["b"]⟩

/-- C8 (counterexample): `sortWires` does NOT leave the input module
unchanged — the post-call value of the caller's module (second component of
the state-passing result) has the reordered wire list, which differs from
the original. -/
theorem sortWires_mutates_cex :
    sortWires m8 = .ok (m8s, m8s) ∧ m8s.wires ≠ m8.wires := by
  refine ⟨rfl, ?_⟩
  intro hc
  have hmap := congrArg (fun l => l.map Wire.name) hc
  simp [m8, m8s, wA, wB] at hmap

/-- C8 (amended): `sortWires` assigns the topologically sorted wire list to
the input module's `wires` field and returns that same module object: after
the call the caller's module equals the returned one (same inputs and
outputs, wires drawn from the original wires but reordered); the original
wire order is not preserved. -/
theorem sortWires_mutates (m : Module) (ret post : Module)
    (h : sortWires m = .ok (ret, post)) :
    ret = post ∧ post.inputs = m.inputs ∧ post.outputs = m.outputs ∧
    ∀ w ∈ post.wires, w ∈ m.wires := by
  unfold sortWires at h
  cases ht : topoSort m.wires (m.inputs.map (fun i => i.name)) with
  | error e =>
      rw [ht] at h
      simp at h
  | ok ws =>
      rw [ht] at h
      simp only [exceptMap_ok, Except.ok.injEq, Prod.mk.injEq] at h
      obtain ⟨h1, h2⟩ := h
      obtain ⟨_, _, hsub, _, _⟩ := topoSort_ok_props m.wires _ ws ht
      rw [← h1, ← h2]
      exact ⟨rfl, rfl, rfl, fun w hw => hsub w hw⟩

/-- C8 witness: the amended theorem at the concrete module `m8`. -/
theorem sortWires_mutates_witness :
    m8s = m8s ∧ m8s.inputs = m8.inputs ∧ m8s.outputs = m8.outputs ∧
    ∀ w ∈ m8s.wires, w ∈ m8.wires :=
  sortWires_mutates m8 m8s m8s rfl

end VerilogCombSim
